import Mathlib

/-!
Shallow embedding of the lsn grouping, aggregation, ordering and rendering
engine (src/lib.rs and src/main.rs), together with theorems settling the
specification's claims against it.

Modelling conventions:
* usize / u64 values are natural numbers; arithmetic that can overflow in the
  source is taken modulo `usizeBound = 2 ^ 64` (release-profile wrapping
  semantics of the deployed binary).
* `SystemTime` is modelled as a natural number; only its total order is used.
* File names are `String` / `List Char`.  The regex class `\d` is modelled as
  an ASCII decimal digit (faithful for ASCII file names) and `.` as an
  arbitrary character.
* Operations that can panic in the source (`parse::<usize>().unwrap()` on the
  captured numeral, `Option::unwrap` on a group's range inside `and_modify`)
  are modelled with `Option`: a `none` result of the fold models a panic that
  aborts the whole run.
* External collaborators (CLI parsing, glob expansion, directory traversal,
  metadata reads, the hidden-file policy filter, terminal colouring) are
  outside the model: the engine consumes a ready-made stream of entries, each
  carrying a name, an optional parent directory and an optional metadata
  record, exactly as `main` does after line 130 of src/main.rs.
-/

/-- Size of the usize value space on the 64-bit target. -/
def usizeBound : Nat := 2 ^ 64

/-- Wrapping usize subtraction (operands are assumed below `usizeBound`). -/
def usizeSub (a b : Nat) : Nat := (a + usizeBound - b) % usizeBound

/-- Metadata record, from `struct Meta` in src/main.rs (lines 57-65).
`SystemTime` is a natural number; `size` is u64. -/
structure Meta where
  modified : Option Nat
  accessed : Option Nat
  created : Option Nat
  size : Nat
  is_dir : Bool
  is_symlink : Bool
  deriving DecidableEq

/-- Aggregated group, from `struct FileGroup` in src/main.rs (lines 80-88).
The range is the half-open numeral interval `(start, end)`. -/
structure FileGroup where
  range : Option (Nat × Nat)
  parent : Option String
  stem : String
  ext : String
  meta : Option Meta
  deriving DecidableEq

/-- Accessor `FileGroup::modified` (src/main.rs line 91). -/
def FileGroup.modified (g : FileGroup) : Option Nat :=
  g.meta.bind fun m => m.modified

/-- Accessor `FileGroup::accessed` (src/main.rs line 94). -/
def FileGroup.accessed (g : FileGroup) : Option Nat :=
  g.meta.bind fun m => m.accessed

/-- Accessor `FileGroup::created` (src/main.rs line 97). -/
def FileGroup.created (g : FileGroup) : Option Nat :=
  g.meta.bind fun m => m.created

/-- Accessor `FileGroup::size` (src/main.rs line 100). -/
def FileGroup.size (g : FileGroup) : Option Nat :=
  g.meta.map fun m => m.size

/-- Accessor `FileGroup::is_dir` (src/main.rs line 103): `false` when the
metadata record is absent. -/
def FileGroup.is_dir (g : FileGroup) : Bool :=
  (g.meta.map fun m => m.is_dir).getD false

/-- Accessor `FileGroup::is_symlink` (src/main.rs line 106): `false` when the
metadata record is absent. -/
def FileGroup.is_symlink (g : FileGroup) : Bool :=
  (g.meta.map fun m => m.is_symlink).getD false

/-- One filesystem entry as consumed by the folding loop of `main`:
its file name, its parent directory, and its optional metadata
(`entry.metadata().ok().map(Meta::from)`). -/
structure Entry where
  name : String
  parent : Option String
  meta : Option Meta
  deriving DecidableEq

/-! ### Name decomposer

The regex of src/lib.rs line 5 is
`^(?<stem>(?:.*\D)?)(?<num>\d+)(?<ext>(?:\..*)?)$`
matched with leftmost-first (backtracking-preference) capture semantics:
the greedy stem takes the longest prefix that is empty or ends in a
non-digit and still allows `\d+` followed by an extension (empty or
starting with a literal dot) to reach the end of the name.  The embedding
tries every stem length from the longest down, which reproduces exactly
that preference order. -/

/-- The regex class `\d` (ASCII decimal digit). -/
def isDigitCh (c : Char) : Bool := c.isDigit

/-- The stem group `(?:.*\D)?`: empty, or ending in a non-digit. -/
def stemOk (s : List Char) : Bool :=
  match s.getLast? with
  | none => true
  | some c => !isDigitCh c

/-- The extension group `(?:\..*)?`: empty, or starting with a dot. -/
def extOk (e : List Char) : Bool :=
  match e.head? with
  | none => true
  | some c => c == '.'

/-- Attempt the match with a stem of exactly `i` characters: the numeral is
then forced to be the maximal digit run that follows, and the extension is
the rest. -/
def splitTry (name : List Char) (i : Nat) :
    Option (List Char × List Char × List Char) :=
  if stemOk (name.take i) && !((name.drop i).takeWhile isDigitCh).isEmpty &&
      extOk ((name.drop i).dropWhile isDigitCh) then
    some (name.take i, (name.drop i).takeWhile isDigitCh,
      (name.drop i).dropWhile isDigitCh)
  else none

/-- Backtracking search over stem lengths `i, i-1, ..., 0`, longest first,
as the greedy regex engine does. -/
def decomposeFrom (name : List Char) : Nat → Option (List Char × List Char × List Char)
  | 0 => splitTry name 0
  | i + 1 =>
    match splitTry name (i + 1) with
    | some t => some t
    | none => decomposeFrom name i

/-- Full decomposition of a file name by the regex: `some (stem, numeral,
extension)` on a match, `none` otherwise. -/
def decompose (name : List Char) : Option (List Char × List Char × List Char) :=
  decomposeFrom name name.length

/-- Numeric value of a digit string. -/
def digitsVal (d : List Char) : Nat :=
  d.foldl (fun a c => a * 10 + (c.toNat - '0'.toNat)) 0

/-- The call `caps["num"].parse::<usize>()` (src/main.rs line 151): the digit
run parses when non-empty and its value fits in usize; otherwise it errors
(and the source's `.unwrap()` panics). -/
def parseUsize (d : List Char) : Option Nat :=
  if d.isEmpty then none
  else if digitsVal d < usizeBound then some (digitsVal d) else none


/-! ### File stem and extension of the singleton path

For an entry whose name fails decomposition, `main` keys the map by the raw
name but stores the stem and extension computed by `Path::file_stem` and
`Path::extension` (src/main.rs lines 133-142): the name is split at its last
dot; when there is no dot, or nothing precedes the last dot, the whole name
is the stem and the extension is absent. -/

/-- Index of the last dot of a name, if any. -/
def lastDotIdx (name : List Char) : Option Nat :=
  (name.reverse.findIdx? fun c => c == '.').map fun j => name.length - 1 - j

/-- Rust `Path::file_stem` on a plain file name. -/
def rustFileStem (name : List Char) : List Char :=
  match lastDotIdx name with
  | none => name
  | some 0 => name
  | some i => name.take i

/-- Rust `Path::extension` on a plain file name. -/
def rustExtension (name : List Char) : Option (List Char) :=
  match lastDotIdx name with
  | none => none
  | some 0 => none
  | some i => some (name.drop (i + 1))

/-- The `ext` string built in src/main.rs lines 138-142: `"." + extension`
when the extension is non-empty, otherwise empty. -/
def rustExtDisplay (name : List Char) : List Char :=
  match rustExtension name with
  | none => []
  | some e => if e.isEmpty then [] else '.' :: e


/-! ### Metadata aggregation -/

/-- Field-update body of the `and_modify` closure (src/main.rs lines 163-173):
each timestamp is combined only when both sides are present (the
`zip`-guarded `if let`s), otherwise the group's stored value is left
untouched; sizes are added with u64 wrapping; `is_dir` / `is_symlink` are
never re-aggregated. -/
def mergeMeta (gm : Meta) (em : Meta) : Meta :=
  { modified :=
      match gm.modified, em.modified with
      | some a, some b => some (Nat.max a b)
      | g, _ => g
    accessed :=
      match gm.accessed, em.accessed with
      | some a, some b => some (Nat.max a b)
      | g, _ => g
    created :=
      match gm.created, em.created with
      | some a, some b => some (Nat.min a b)
      | g, _ => g
    size := (gm.size + em.size) % usizeBound
    is_dir := gm.is_dir
    is_symlink := gm.is_symlink }

/-- The outer `zip` guard of src/main.rs line 162: the whole update is
skipped unless both the group's and the entry's metadata records are
present, so the group's record is kept verbatim otherwise. -/
def mergeMetaOpt (g : Option Meta) (e : Option Meta) : Option Meta :=
  match g, e with
  | some gm, some em => some (mergeMeta gm em)
  | g, _ => g

/-! ### Range merging (src/main.rs lines 154-176) -/

/-- Initial range `num..num+1` of `or_insert` (src/main.rs line 176), with
the usize increment wrapping. -/
def initRange (n : Nat) : Nat × Nat :=
  (n, (n + 1) % usizeBound)

/-- Range update of `and_modify` (src/main.rs lines 159-160):
`start = min(start, n)`, `end = max(end, n+1)`. -/
def stepRange (r : Nat × Nat) (n : Nat) : Nat × Nat :=
  (Nat.min r.1 n, Nat.max r.2 ((n + 1) % usizeBound))

/-- Range accumulated by folding the numerals `n :: ns` for one key, in
arrival order. -/
def foldRange (n : Nat) (ns : List Nat) : Nat × Nat :=
  ns.foldl stepRange (initRange n)

/-! ### The aggregator map

`IndexMap<String, FileGroup>` is modelled as an insertion-ordered
association list; `IndexMap::insert` replaces the value of an existing key
in place, and `entry().and_modify().or_insert()` updates in place or
appends at the end. -/

/-- The aggregator's insertion-ordered map. -/
abbrev GMap := List (String × FileGroup)

/-- Key lookup, first match wins (keys are unique by construction). -/
def lookupKey (k : String) : GMap → Option FileGroup
  | [] => none
  | (k', v) :: rest => if k' = k then some v else lookupKey k rest

/-- In-place value update at a key, preserving order (`and_modify`). -/
def updateAt (k : String) (f : FileGroup → FileGroup) : GMap → GMap
  | [] => []
  | (k', v) :: rest => if k' = k then (k', f v) :: rest else (k', v) :: updateAt k f rest

/-- `IndexMap::insert`: replace in place when the key exists (keeping its
position), otherwise append at the end. -/
def insertReplace (k : String) (v : FileGroup) : GMap → GMap
  | [] => [(k, v)]
  | (k', v') :: rest =>
    if k' = k then (k', v) :: rest else (k', v') :: insertReplace k v rest

/-- The `FileGroup` inserted for an entry whose name fails decomposition
(src/main.rs line 146). -/
def singletonGroup (e : Entry) : FileGroup :=
  { range := none
    parent := e.parent
    stem := String.mk (rustFileStem e.name.toList)
    ext := String.mk (rustExtDisplay e.name.toList)
    meta := e.meta }

/-- The map key `format!("{}#{}", stem, ext)` (src/main.rs line 150). -/
def groupKey (s x : List Char) : String :=
  String.mk s ++ "#" ++ String.mk x

/-- The key an entry folds under: the raw name on decomposition failure,
`stem#ext` otherwise. -/
def entryKey (e : Entry) : String :=
  match decompose e.name.toList with
  | none => e.name
  | some (s, _, x) => groupKey s x

/-- Merge of one numbered entry into an existing group, the `and_modify`
closure body (src/main.rs lines 155-175): update the range, then the
metadata; `parent`, `stem` and `ext` are untouched. -/
def mergeGroup (g : FileGroup) (num : Nat) (emeta : Option Meta) : FileGroup :=
  { g with
    range := (g.range.map fun r => stepRange r num)
    meta := mergeMetaOpt g.meta emeta }

/-- Folding one entry into the map, the loop body of src/main.rs lines
143-177.  A `none` result models a panic aborting the run: either the
numeral does not fit usize (`parse().unwrap()`, line 151) or `and_modify`
hits a group without a range (`range.as_mut().unwrap()`, line 157). -/
def foldEntry (m : GMap) (e : Entry) : Option GMap :=
  match decompose e.name.toList with
  | none => some (insertReplace e.name (singletonGroup e) m)
  | some (s, d, x) =>
    let key := groupKey s x
    match parseUsize d with
    | none => none
    | some num =>
      match lookupKey key m with
      | none =>
        some (m ++ [(key,
          { range := some (initRange num)
            parent := e.parent
            stem := String.mk s
            ext := String.mk x
            meta := e.meta })])
      | some grp =>
        match grp.range with
        | none => none
        | some _ => some (updateAt key (fun g => mergeGroup g num e.meta) m)

/-- Folding a whole entry stream, strictly in order; `none` models an
aborted run. -/
def foldEntries (m : GMap) : List Entry → Option GMap
  | [] => some m
  | e :: es =>
    match foldEntry m e with
    | none => none
    | some m' => foldEntries m' es


/-! ### Group comparator (src/main.rs lines 182-229)

The list of active sort criteria, in flag-supply order, is derived from the
CLI by lines 182-193 (an external collaborator concern); the comparator
consumes it as an explicit list.  `Option<SystemTime>` compares with Rust's
derived order: `None` is less than any `Some`.  The range tiebreak of line
218 is `Iterator::cmp` on the two `Range<usize>` iterators, a lexicographic
comparison of the element sequences. -/

/-- A metadata sort criterion. -/
inductive Criterion
  | byModified
  | bySize
  deriving DecidableEq

/-- Rust's derived `Ord` on `Option<SystemTime>`: `None < Some`. -/
def cmpOptTime : Option Nat → Option Nat → Ordering
  | none, none => .eq
  | none, some _ => .lt
  | some _, none => .gt
  | some a, some b => compare a b

/-- Lexicographic comparison of two number sequences (`Iterator::cmp`). -/
def cmpSeq : List Nat → List Nat → Ordering
  | [], [] => .eq
  | [], _ :: _ => .lt
  | _ :: _, [] => .gt
  | a :: as', b :: bs' => (compare a b).then (cmpSeq as' bs')

/-- The element sequence of a half-open `Range<usize>` iterator. -/
def rangeSeq (r : Nat × Nat) : List Nat :=
  List.range' r.1 (r.2 - r.1)

/-- Contribution of one criterion inside the metadata pass
(src/main.rs lines 199-213), evaluated when both records are present. -/
def critCmp (am bm : Meta) : Criterion → Ordering
  | .byModified => cmpOptTime am.modified bm.modified
  | .bySize => compare am.size bm.size

/-- The metadata pass of the comparator (src/main.rs lines 197-214): the
criteria chain is folded only when both groups carry a metadata record,
otherwise it contributes `Equal`. -/
def criteriaCmp (crits : List Criterion) (a b : FileGroup) : Ordering :=
  match a.meta, b.meta with
  | some am, some bm => crits.foldl (fun acc c => acc.then (critCmp am bm c)) .eq
  | _, _ => .eq

/-- The full composite comparator of `sort_by` (src/main.rs lines 196-228):
metadata pass, then (unless `--unsorted`) stem, range-sequence and extension
tiebreaks, with the final ordering reversed by `--reverse`. -/
def compareGroups (crits : List Criterion) (unsorted reverse : Bool)
    (a b : FileGroup) : Ordering :=
  let less := criteriaCmp crits a b
  let less :=
    if !unsorted then
      (((less.then (compare a.stem b.stem)).then
        (match a.range, b.range with
         | some ra, some rb => cmpSeq (rangeSeq ra) (rangeSeq rb)
         | _, _ => .eq)).then
        (compare a.ext b.ext))
    else less
  if reverse then less.swap else less

/-- Stable insertion of a group into a sorted list: it goes after every
group not greater than it, as Rust's stable `sort_by` keeps ties in
encounter order. -/
def sortInsert (le : FileGroup → FileGroup → Bool) (a : FileGroup) :
    List FileGroup → List FileGroup
  | [] => [a]
  | b :: bs => if le b a then b :: sortInsert le a bs else a :: b :: bs

/-- Stable sort by a boolean "not greater" relation. -/
def sortGroups (le : FileGroup → FileGroup → Bool) :
    List FileGroup → List FileGroup
  | [] => []
  | a :: as' => sortInsert le a (sortGroups le as')

/-- The ordering phase (src/main.rs lines 195-229): the sort runs unless the
caller asked for unsorted output and no metadata criterion is active, in
which case the collection keeps the aggregator's insertion order. -/
def orderGroups (unsorted : Bool) (crits : List Criterion) (reverse : Bool)
    (gs : List FileGroup) : List FileGroup :=
  if !unsorted || !crits.isEmpty then
    sortGroups (fun a b => compareGroups crits unsorted reverse a b ≠ .gt) gs
  else gs

/-- The output collection: the map's values in order, passed through the
ordering phase (src/main.rs lines 180 and 195-229). -/
def outputGroups (unsorted : Bool) (crits : List Criterion) (reverse : Bool)
    (m : GMap) : List FileGroup :=
  orderGroups unsorted crits reverse (m.map Prod.snd)

/-! ### Display renderer (src/main.rs lines 244-259) -/

/-- The rendered name segment of a group: `stem ++ ext` for rangeless
singletons; for width-1 ranges the numeral's canonical decimal form between
stem and extension; otherwise the `#` marker and the inclusive-looking
`(start..end-1)` span.  Width and `end - 1` are u64 subtractions, hence
wrapping. -/
def renderName (g : FileGroup) : String :=
  match g.range with
  | none => g.stem ++ g.ext
  | some r =>
    if usizeSub r.2 r.1 == 1 then
      g.stem ++ Nat.repr r.1 ++ g.ext
    else
      g.stem ++ "#" ++ g.ext ++ " (" ++ Nat.repr r.1 ++ ".." ++
        Nat.repr (usizeSub r.2 1) ++ ")"

/-- The trailing marker appended by the printing loop (src/main.rs lines
266-280): `/` for directories, `@` for symlinks, nothing otherwise (the
colour and no-colour branches agree on it). -/
def marker (g : FileGroup) : String :=
  if g.is_dir then "/" else if g.is_symlink then "@" else ""

/-- First-occurrence subsequence of a key list: the order in which new keys
enter an insertion-ordered map. -/
def firstOccur (l : List String) : List String :=
  l.foldl (fun acc k => if k ∈ acc then acc else acc ++ [k]) []


/-! ### Evaluation checks of the embedding on concrete inputs -/

/-- The decomposer on the library's own unit-test names. -/
theorem eval_decomposer_tests :
    decompose "test2.3dv".toList =
      some ("test".toList, "2".toList, ".3dv".toList) ∧
    decompose "some1other5test2.3dv".toList =
      some ("some1other5test".toList, "2".toList, ".3dv".toList) ∧
    decompose "readme".toList = none ∧
    parseUsize "18446744073709551616".toList = none ∧
    parseUsize "05".toList = some 5 := by
  refine ⟨by decide, by decide, by decide, by decide, by decide⟩

/-- Rust file-stem and extension semantics at the usual corner cases. -/
theorem eval_file_stem_tests :
    rustFileStem "readme".toList = "readme".toList ∧
    rustExtDisplay "readme".toList = [] ∧
    rustFileStem "a.b.c".toList = "a.b".toList ∧
    rustExtDisplay "a.b.c".toList = ".c".toList ∧
    rustFileStem ".bashrc".toList = ".bashrc".toList ∧
    rustExtDisplay ".bashrc".toList = [] ∧
    rustExtDisplay "foo.".toList = [] := by
  refine ⟨by decide, by decide, by decide, by decide, by decide, by decide,
    by decide⟩

/-- The end-to-end scenario of the specification, section 8: the numbered
frames collapse into one group with range 1..11 rendered with the collapsed
marker, and `readme.txt` stays a rangeless singleton rendered unchanged. -/
theorem eval_end_to_end_scenario :
    foldEntries [] [⟨"frame1.png", none, none⟩, ⟨"frame2.png", none, none⟩,
      ⟨"frame10.png", none, none⟩, ⟨"readme.txt", none, none⟩] =
    some [("frame#.png", ⟨some (1, 11), none, "frame", ".png", none⟩),
      ("readme.txt", ⟨none, none, "readme", ".txt", none⟩)] ∧
    renderName ⟨some (1, 11), none, "frame", ".png", none⟩ =
      "frame#.png (1..10)" ∧
    renderName ⟨none, none, "readme", ".txt", none⟩ = "readme.txt" ∧
    firstOccur ["a", "b", "a", "c", "b"] = ["a", "b", "c"] := by
  refine ⟨by decide, by decide, by decide, by decide⟩

/-! ### Helper lemmas about the decomposer -/

theorem splitTry_none_of_le {name : List Char} {j : Nat}
    (h : name.length ≤ j) : splitTry name j = none := by
  have hd : name.drop j = [] := List.drop_eq_nil_of_le h
  simp [splitTry, hd]

theorem splitTry_facts {name : List Char} {i : Nat} {s d e : List Char}
    (h : splitTry name i = some (s, d, e)) :
    s = name.take i ∧ d = (name.drop i).takeWhile isDigitCh ∧
      e = (name.drop i).dropWhile isDigitCh ∧
      stemOk s = true ∧ d.isEmpty = false ∧ extOk e = true := by
  unfold splitTry at h
  split at h
  · next hc =>
      simp only [Option.some.injEq, Prod.mk.injEq] at h
      obtain ⟨hs, hd, he⟩ := h
      simp only [Bool.and_eq_true, Bool.not_eq_true'] at hc
      exact ⟨hs.symm, hd.symm, he.symm, hs ▸ hc.1.1, hd ▸ hc.1.2, he ▸ hc.2⟩
  · exact absurd h (by simp)

theorem splitTry_length_le {name : List Char} {i : Nat} {s d e : List Char}
    (h : splitTry name i = some (s, d, e)) : i ≤ name.length := by
  by_contra hgt
  rw [splitTry_none_of_le (Nat.le_of_lt (Nat.lt_of_not_le hgt))] at h
  exact absurd h (by simp)

theorem decomposeFrom_found (name : List Char) :
    ∀ (k : Nat) (t : List Char × List Char × List Char),
      decomposeFrom name k = some t →
      ∃ i, i ≤ k ∧ splitTry name i = some t ∧
        ∀ j, i < j → j ≤ k → splitTry name j = none := by
  intro k
  induction k with
  | zero =>
      intro t h
      exact ⟨0, Nat.le_refl 0, h, fun j hj hj' => absurd (Nat.lt_of_lt_of_le hj hj') (Nat.lt_irrefl 0)⟩
  | succ k ih =>
      intro t h
      unfold decomposeFrom at h
      cases hs : splitTry name (k + 1) with
      | some t' =>
          rw [hs] at h
          refine ⟨k + 1, Nat.le_refl _, ?_, fun j hj hj' => absurd (Nat.lt_of_lt_of_le hj hj') (Nat.lt_irrefl _)⟩
          rw [hs]
          exact h
      | none =>
          rw [hs] at h
          obtain ⟨i, hik, hsp, hnone⟩ := ih t h
          refine ⟨i, Nat.le_succ_of_le hik, hsp, fun j hj hj' => ?_⟩
          rcases Nat.lt_or_ge j (k + 1) with hlt | hge
          · exact hnone j hj (Nat.lt_succ_iff.mp hlt)
          · have : j = k + 1 := Nat.le_antisymm hj' hge
            rw [this]
            exact hs

theorem decompose_found {name : List Char} {s d e : List Char}
    (h : decompose name = some (s, d, e)) :
    splitTry name s.length = some (s, d, e) ∧
      ∀ j, s.length < j → splitTry name j = none := by
  obtain ⟨i, hik, hsp, hnone⟩ := decomposeFrom_found name name.length (s, d, e) h
  have hfacts := splitTry_facts hsp
  have hil : i ≤ name.length := splitTry_length_le hsp
  have hslen : s.length = i := by
    rw [hfacts.1, List.length_take]
    exact Nat.min_eq_left hil
  constructor
  · rw [hslen]; exact hsp
  · intro j hj
    rw [hslen] at hj
    rcases Nat.lt_or_ge name.length j with hbig | hle
    · exact splitTry_none_of_le (Nat.le_of_lt hbig)
    · exact hnone j hj hle

/-- C7: for every name on which decomposition succeeds, stem ++ numeral ++
extension reconstructs the name exactly; the numeral is a non-empty all-digit
run preceded by a non-digit (or nothing) and followed by the extension's
leading dot or the end of the name; no decomposition exists at any later
split position (the run is the rightmost qualifying one); and the table of
section 4.1 of the specification holds literally for each listed input. -/
theorem c7_decomposer_partition_rightmost_table :
    (∀ name s d e : List Char, decompose name = some (s, d, e) →
      s ++ d ++ e = name ∧
      d ≠ [] ∧ (∀ c ∈ d, isDigitCh c = true) ∧
      stemOk s = true ∧ extOk e = true ∧
      splitTry name s.length = some (s, d, e) ∧
      (∀ j, s.length < j → splitTry name j = none)) ∧
    decompose "test2.3dv".toList =
      some ("test".toList, "2".toList, ".3dv".toList) ∧
    decompose "some1other5test2.3dv".toList =
      some ("some1other5test".toList, "2".toList, ".3dv".toList) ∧
    decompose "some1other5test2".toList =
      some ("some1other5test".toList, "2".toList, []) ∧
    decompose "some1other5test2.".toList =
      some ("some1other5test".toList, "2".toList, ".".toList) ∧
    decompose "01.t".toList = some ([], "01".toList, ".t".toList) ∧
    decompose "01".toList = some ([], "01".toList, []) := by
  refine ⟨?_, by decide, by decide, by decide, by decide, by decide, by decide⟩
  intro name s d e h
  obtain ⟨hsp, hrightmost⟩ := decompose_found h
  have hfacts := splitTry_facts hsp
  obtain ⟨hs, hd, he, hstem, hdne, hext⟩ := hfacts
  refine ⟨?_, ?_, ?_, hstem, hext, hsp, hrightmost⟩
  · rw [List.append_assoc, hs, hd, he, List.takeWhile_append_dropWhile,
      List.take_append_drop]
  · intro hnil
    rw [hnil] at hdne
    simp at hdne
  · intro c hc
    rw [hd] at hc
    exact List.mem_takeWhile_imp hc

/-- Witness for C7 at the concrete input of the specification's first table
row: the partition property evaluated at `test2.3dv`. -/
theorem c7_witness :
    "test".toList ++ "2".toList ++ ".3dv".toList = "test2.3dv".toList ∧
      ("2".toList ≠ [] ∧ ∀ c ∈ "2".toList, isDigitCh c = true) := by
  have hmain := c7_decomposer_partition_rightmost_table.1 "test2.3dv".toList
    "test".toList "2".toList ".3dv".toList (by decide)
  exact ⟨hmain.1, hmain.2.1, hmain.2.2.1⟩

/-- C1: a digit run too large for usize is NOT handled per-entry.  At the
concrete file name `18446744073709551616.txt` (the run's value is 2^64, one
past `usize::MAX`) the name decomposes, so the numbered path is taken, the
parse of the numeral fails, and the fold of the run aborts (`none`, the
model of the `unwrap` panic of src/main.rs line 151) instead of falling back
to singleton grouping and completing. -/
theorem c1_overflow_numeral_aborts_run :
    decompose "18446744073709551616.txt".toList =
      some ([], "18446744073709551616".toList, ".txt".toList) ∧
    parseUsize "18446744073709551616".toList = none ∧
    foldEntries [] [⟨"18446744073709551616.txt", none, none⟩] = none ∧
    foldEntries []
      [⟨"18446744073709551616.txt", none, none⟩, ⟨"readme.txt", none, none⟩] =
      none := by
  refine ⟨by decide, by decide, by decide, by decide⟩

/-- C10: a group whose aggregated metadata record is entirely absent reports
`is_dir = false` and `is_symlink = false`, so the printing loop appends no
trailing `/` or `@` marker to it. -/
theorem c10_absent_meta_prints_plain (g : FileGroup) (h : g.meta = none) :
    g.is_dir = false ∧ g.is_symlink = false ∧ marker g = "" := by
  simp [FileGroup.is_dir, FileGroup.is_symlink, marker, h]

/-- Witness for C10 at a concrete metadata-less group. -/
theorem c10_witness :
    (FileGroup.is_dir ⟨none, none, "x", "", none⟩ = false ∧
      FileGroup.is_symlink ⟨none, none, "x", "", none⟩ = false ∧
      marker ⟨none, none, "x", "", none⟩ = "") :=
  c10_absent_meta_prints_plain ⟨none, none, "x", "", none⟩ rfl

theorem usizeSub_succ_self (s : Nat) : usizeSub (s + 1) s = 1 := by
  have h1 : s + 1 + usizeBound - s = usizeBound + 1 := by omega
  have h2 : 1 < usizeBound := by norm_num [usizeBound]
  rw [usizeSub, h1, Nat.add_mod_left]
  exact Nat.mod_eq_of_lt h2

theorem usizeSub_eq_sub {a b : Nat} (h1 : b ≤ a) (h2 : a - b < usizeBound) :
    usizeSub a b = a - b := by
  have h3 : a + usizeBound - b = usizeBound + (a - b) := by omega
  rw [usizeSub, h3, Nat.add_mod_left]
  exact Nat.mod_eq_of_lt h2

/-- C8: the renderer produces `stem ++ ext` for a rangeless group;
`stem ++ decimal(start) ++ ext` for a width-1 range (the numeral re-printed
in canonical decimal form); and `stem ++ "#" ++ ext ++ " (start..end-1)"`
for wider ranges.  A lone `img5.jpg` renders back as `img5.jpg`, and a lone
`img05.jpg` renders as `img5.jpg`: the original leading zero is not
preserved, only the numeric value. -/
theorem c8_renderer_cases :
    (∀ g : FileGroup, g.range = none → renderName g = g.stem ++ g.ext) ∧
    (∀ (g : FileGroup) (s : Nat), g.range = some (s, s + 1) →
      renderName g = g.stem ++ Nat.repr s ++ g.ext) ∧
    (∀ (g : FileGroup) (s e : Nat), g.range = some (s, e) → s < e →
      e - s ≠ 1 → e < usizeBound →
      renderName g =
        g.stem ++ "#" ++ g.ext ++ " (" ++ Nat.repr s ++ ".." ++
          Nat.repr (e - 1) ++ ")") ∧
    (foldEntries [] [⟨"img5.jpg", none, none⟩]).map
        (fun m => m.map fun p => renderName p.2) = some ["img5.jpg"] ∧
    (foldEntries [] [⟨"img05.jpg", none, none⟩]).map
        (fun m => m.map fun p => renderName p.2) = some ["img5.jpg"] := by
  refine ⟨?_, ?_, ?_, by decide, by decide⟩
  · intro g h
    simp [renderName, h]
  · intro g s h
    simp [renderName, h, usizeSub_succ_self]
  · intro g s e h hlt hw hbound
    have hsub : usizeSub e s = e - s :=
      usizeSub_eq_sub (Nat.le_of_lt hlt) (Nat.lt_of_le_of_lt (Nat.sub_le e s) hbound)
    have hone : usizeSub e 1 = e - 1 :=
      usizeSub_eq_sub (Nat.one_le_iff_ne_zero.mpr (by omega))
        (Nat.lt_of_le_of_lt (Nat.sub_le e 1) hbound)
    simp [renderName, h, hsub, hone, hw]

/-- Witness for C8: the width-1 case applied at the concrete group of a lone
`img5.jpg`, and the rangeless case at a concrete singleton. -/
theorem c8_witness :
    renderName ⟨some (5, 6), none, "img", ".jpg", none⟩ =
        "img" ++ Nat.repr 5 ++ ".jpg" ∧
      renderName ⟨none, none, "readme", ".txt", none⟩ = "readme" ++ ".txt" :=
  ⟨c8_renderer_cases.2.1 ⟨some (5, 6), none, "img", ".jpg", none⟩ 5 rfl,
    c8_renderer_cases.1 ⟨none, none, "readme", ".txt", none⟩ rfl⟩

/-- Counterexample to C5 as stated: with by-modified-time active, a group
whose aggregated `modified` is absent (its metadata record is present but
the `modified` field is missing) does NOT compare as equal against a group
with a present `modified`: Rust's `Option` order makes the absence compare
as less, so the criterion does contribute a distinction. -/
theorem c5_counterexample :
    FileGroup.modified
        ⟨some (1, 2), none, "a", "", some ⟨none, none, none, 0, false, false⟩⟩ =
      none ∧
    compareGroups [Criterion.byModified] true false
        ⟨some (1, 2), none, "a", "", some ⟨none, none, none, 0, false, false⟩⟩
        ⟨some (1, 2), none, "a", "", some ⟨some 5, none, none, 0, false, false⟩⟩ =
      Ordering.lt ∧
    Ordering.lt ≠ Ordering.eq := by
  refine ⟨rfl, by decide, by decide⟩

/-- C5 amended: the metadata pass contributes no distinction exactly when a
whole metadata RECORD is absent on either side (the `zip` guard of
src/main.rs line 198 skips all criteria); but when both records are present
and only the `modified` FIELD is absent on one side, the by-modified-time
criterion orders the absent side strictly first (`None < Some`), it is not
treated as equal.  The by-size criterion can never see a field-level
absence, since `size` is not optional inside a present record. -/
theorem c5_amended_absent_contribution :
    (∀ (crits : List Criterion) (rev : Bool) (a b : FileGroup),
      a.meta = none ∨ b.meta = none →
      criteriaCmp crits a b = Ordering.eq ∧
        compareGroups crits true rev a b = Ordering.eq) ∧
    (∀ (a b : FileGroup) (am bm : Meta) (t : Nat),
      a.meta = some am → b.meta = some bm → am.modified = none →
      bm.modified = some t →
      compareGroups [Criterion.byModified] true false a b = Ordering.lt) := by
  constructor
  · intro crits rev a b h
    have hcc : criteriaCmp crits a b = Ordering.eq := by
      rcases h with ha | hb
      · cases hb : b.meta <;> simp [criteriaCmp, ha, hb]
      · cases ha : a.meta <;> simp [criteriaCmp, ha, hb]
    refine ⟨hcc, ?_⟩
    cases rev
    · simp [compareGroups, hcc]
    · simp [compareGroups, hcc]
      decide
  · intro a b am bm t ha hb ham hbm
    simp [compareGroups, criteriaCmp, critCmp, cmpOptTime, ha, hb, ham, hbm]
    decide

/-- Witness for C5 amended: a whole-record absence on the left yields
equality under both criteria, at concrete groups. -/
theorem c5_amended_witness :
    criteriaCmp [Criterion.byModified, Criterion.bySize]
        ⟨none, none, "a", "", none⟩
        ⟨none, none, "b", "", some ⟨some 3, none, none, 7, false, false⟩⟩ =
      Ordering.eq ∧
    compareGroups [Criterion.byModified, Criterion.bySize] true false
        ⟨none, none, "a", "", none⟩
        ⟨none, none, "b", "", some ⟨some 3, none, none, 7, false, false⟩⟩ =
      Ordering.eq :=
  c5_amended_absent_contribution.1 [Criterion.byModified, Criterion.bySize]
    false ⟨none, none, "a", "", none⟩
    ⟨none, none, "b", "", some ⟨some 3, none, none, 7, false, false⟩⟩
    (Or.inl rfl)

/-- Counterexample to C2 as stated: merging a group with complete `modified`
data against an entry whose metadata is entirely absent keeps the group's
`modified` (and its whole record) verbatim instead of making it absent: the
`zip` guard of src/main.rs line 162 skips the update, it does not poison. -/
theorem c2_counterexample :
    foldEntries []
        [⟨"f1.txt", none, some ⟨some 5, some 6, some 7, 10, false, false⟩⟩,
          ⟨"f2.txt", none, none⟩] =
      some [("f#.txt",
        ⟨some (1, 3), none, "f", ".txt",
          some ⟨some 5, some 6, some 7, 10, false, false⟩⟩)] ∧
    FileGroup.modified
        ⟨some (1, 3), none, "f", ".txt",
          some ⟨some 5, some 6, some 7, 10, false, false⟩⟩ = some 5 ∧
    (some 5 : Option Nat) ≠ none := by
  refine ⟨by decide, rfl, by decide⟩

/-- C2 amended: metadata aggregation is NOT symmetric poisoning.  Each field
is combined (`max` for modified and accessed, `min` for created, wrapping
sum for size) only when both sides are present; when the entry's record or
field is absent, the group's stored value is retained unchanged; and when
the group's record or field is absent it stays absent, whatever the entry
carries.  Absence therefore propagates only from the group (first-inserted)
side. -/
theorem c2_amended_merge_retains_group_side :
    (∀ em : Option Meta, mergeMetaOpt none em = none) ∧
    (∀ gm : Meta, mergeMetaOpt (some gm) none = some gm) ∧
    (∀ gm em : Meta, mergeMetaOpt (some gm) (some em) = some (mergeMeta gm em)) ∧
    (∀ gm em : Meta, em.modified = none → (mergeMeta gm em).modified = gm.modified) ∧
    (∀ gm em : Meta, gm.modified = none → (mergeMeta gm em).modified = none) ∧
    (∀ (gm em : Meta) (a b : Nat), gm.modified = some a → em.modified = some b →
      (mergeMeta gm em).modified = some (Nat.max a b)) ∧
    (∀ gm em : Meta, em.accessed = none → (mergeMeta gm em).accessed = gm.accessed) ∧
    (∀ (gm em : Meta) (a b : Nat), gm.accessed = some a → em.accessed = some b →
      (mergeMeta gm em).accessed = some (Nat.max a b)) ∧
    (∀ gm em : Meta, em.created = none → (mergeMeta gm em).created = gm.created) ∧
    (∀ (gm em : Meta) (a b : Nat), gm.created = some a → em.created = some b →
      (mergeMeta gm em).created = some (Nat.min a b)) ∧
    (∀ gm em : Meta, (mergeMeta gm em).size = (gm.size + em.size) % usizeBound) := by
  refine ⟨fun em => rfl, fun gm => rfl, fun gm em => rfl, ?_, ?_, ?_, ?_, ?_, ?_, ?_, fun gm em => rfl⟩
  · intro gm em h
    cases hg : gm.modified <;> simp [mergeMeta, h, hg]
  · intro gm em h
    cases he : em.modified <;> simp [mergeMeta, h, he]
  · intro gm em a b hg he
    simp [mergeMeta, hg, he]
  · intro gm em h
    cases hg : gm.accessed <;> simp [mergeMeta, h, hg]
  · intro gm em a b hg he
    simp [mergeMeta, hg, he]
  · intro gm em h
    cases hg : gm.created <;> simp [mergeMeta, h, hg]
  · intro gm em a b hg he
    simp [mergeMeta, hg, he]

/-- Witness for C2 amended at concrete records: an entry without metadata
leaves the group's record untouched, and two present `modified` fields merge
to their maximum. -/
theorem c2_amended_witness :
    mergeMetaOpt (some ⟨some 5, none, none, 4, false, false⟩) none =
      some ⟨some 5, none, none, 4, false, false⟩ ∧
    (mergeMeta ⟨some 5, none, none, 4, false, false⟩
        ⟨some 9, none, none, 2, false, false⟩).modified = some (Nat.max 5 9) :=
  ⟨c2_amended_merge_retains_group_side.2.1 ⟨some 5, none, none, 4, false, false⟩,
    c2_amended_merge_retains_group_side.2.2.2.2.2.1
      ⟨some 5, none, none, 4, false, false⟩
      ⟨some 9, none, none, 2, false, false⟩ 5 9 rfl rfl⟩

/-! ### Helper lemmas about range folding -/

theorem foldRange_pair (ns : List Nat) :
    ∀ a b : Nat,
      ns.foldl stepRange (a, b) =
        (ns.foldl Nat.min a,
          ns.foldl (fun x k => Nat.max x ((k + 1) % usizeBound)) b) := by
  induction ns with
  | nil => intro a b; rfl
  | cons k ks ih => intro a b; simpa [stepRange] using ih (Nat.min a k) (Nat.max b ((k + 1) % usizeBound))

theorem foldl_perm_of_right_comm {f : Nat → Nat → Nat}
    (hc : ∀ b x y, f (f b x) y = f (f b y) x) :
    ∀ {l₁ l₂ : List Nat}, l₁.Perm l₂ → ∀ a, l₁.foldl f a = l₂.foldl f a := by
  intro l₁ l₂ p
  induction p with
  | nil => intro a; rfl
  | cons x _ ih => intro a; simpa using ih (f a x)
  | swap x y l => intro a; simp [hc]
  | trans _ _ ih₁ ih₂ => intro a; rw [ih₁, ih₂]

theorem foldl_min_le_init : ∀ (ns : List Nat) (a : Nat), ns.foldl Nat.min a ≤ a := by
  intro ns
  induction ns with
  | nil => intro a; exact Nat.le_refl a
  | cons k ks ih =>
      intro a
      exact Nat.le_trans (ih (Nat.min a k)) (Nat.min_le_left a k)

theorem foldl_min_le_mem : ∀ (ns : List Nat) (a k : Nat), k ∈ ns → ns.foldl Nat.min a ≤ k := by
  intro ns
  induction ns with
  | nil => intro a k hk; cases hk
  | cons x xs ih =>
      intro a k hk
      rcases List.mem_cons.mp hk with h | h
      · subst h
        exact Nat.le_trans (foldl_min_le_init xs (Nat.min a k)) (Nat.min_le_right a k)
      · exact ih (Nat.min a x) k h

theorem foldl_min_mem : ∀ (ns : List Nat) (a : Nat),
    ns.foldl Nat.min a = a ∨ ns.foldl Nat.min a ∈ ns := by
  intro ns
  induction ns with
  | nil => intro a; exact Or.inl rfl
  | cons x xs ih =>
      intro a
      rw [List.foldl_cons]
      have hx : Nat.min a x = a ∨ Nat.min a x = x := by
        by_cases hle : a ≤ x
        · exact Or.inl (Nat.min_eq_left hle)
        · exact Or.inr (Nat.min_eq_right (Nat.le_of_not_le hle))
      rcases ih (Nat.min a x) with h | h
      · rcases hx with hx' | hx'
        · exact Or.inl (by rw [h, hx'])
        · refine Or.inr ?_
          rw [h, hx']
          exact List.mem_cons_self x xs
      · exact Or.inr (List.mem_cons_of_mem x h)

theorem foldl_max_init_le : ∀ (ns : List Nat) (a : Nat), a ≤ ns.foldl Nat.max a := by
  intro ns
  induction ns with
  | nil => intro a; exact Nat.le_refl a
  | cons k ks ih =>
      intro a
      exact Nat.le_trans (Nat.le_max_left a k) (ih (Nat.max a k))

theorem foldl_max_mem_le : ∀ (ns : List Nat) (a k : Nat), k ∈ ns → k ≤ ns.foldl Nat.max a := by
  intro ns
  induction ns with
  | nil => intro a k hk; cases hk
  | cons x xs ih =>
      intro a k hk
      rcases List.mem_cons.mp hk with h | h
      · subst h
        exact Nat.le_trans (Nat.le_max_right a k) (foldl_max_init_le xs (Nat.max a k))
      · exact ih (Nat.max a x) k h

theorem foldl_max_mem : ∀ (ns : List Nat) (a : Nat),
    ns.foldl Nat.max a = a ∨ ns.foldl Nat.max a ∈ ns := by
  intro ns
  induction ns with
  | nil => intro a; exact Or.inl rfl
  | cons x xs ih =>
      intro a
      rw [List.foldl_cons]
      have hx : Nat.max a x = a ∨ Nat.max a x = x := by
        by_cases hle : a ≤ x
        · exact Or.inr (Nat.max_eq_right hle)
        · exact Or.inl (Nat.max_eq_left (Nat.le_of_not_le hle))
      rcases ih (Nat.max a x) with h | h
      · rcases hx with hx' | hx'
        · exact Or.inl (by rw [h, hx'])
        · refine Or.inr ?_
          rw [h, hx']
          exact List.mem_cons_self x xs
      · exact Or.inr (List.mem_cons_of_mem x h)

theorem foldl_max_succ : ∀ (ns : List Nat) (a : Nat),
    (ns.map fun k => k + 1).foldl Nat.max (a + 1) = ns.foldl Nat.max a + 1 := by
  intro ns
  induction ns with
  | nil => intro a; rfl
  | cons k ks ih =>
      intro a
      have h : Nat.max (a + 1) (k + 1) = Nat.max a k + 1 := Nat.succ_max_succ a k
      simpa [h] using ih (Nat.max a k)

theorem foldl_congr_mem : ∀ (ns : List Nat) (f h : Nat → Nat → Nat) (a : Nat),
    (∀ x k, k ∈ ns → f x k = h x k) → ns.foldl f a = ns.foldl h a := by
  intro ns
  induction ns with
  | nil => intro f h a _; rfl
  | cons x xs ih =>
      intro f h a hagree
      rw [List.foldl_cons, List.foldl_cons,
        hagree a x (List.mem_cons_self x xs)]
      exact ih f h (h a x) fun y k hk => hagree y k (List.mem_cons_of_mem x hk)

/-- Counterexample to C6 as stated: folding the single numeral
`18446744073709551615` (`usize::MAX`, a legal 20-character file name) gives
the range `(18446744073709551615, 0)`: the computed end is the wrapping
`num + 1`, not the mathematical maximum-plus-one.  The full pipeline on the
file `18446744073709551615` stores exactly that wrapped range. -/
theorem c6_counterexample :
    foldRange 18446744073709551615 [] = (18446744073709551615, 0) ∧
    (foldRange 18446744073709551615 []).2 ≠ 18446744073709551615 + 1 ∧
    foldEntries [] [⟨"18446744073709551615", none, none⟩] =
      some [("#", ⟨some (18446744073709551615, 0), none, "", "", none⟩)] := by
  refine ⟨by decide, by decide, by decide⟩

/-- C6 amended: range merging is commutative and associative — folding the
numerals of one group key in any permutation of arrival order yields the
same final `(start, end)` — and the final start is exactly the minimum
numeral; the final end is the maximum numeral plus one provided every
`numeral + 1` still fits in usize (without that proviso the increment wraps,
see the counterexample). -/
theorem c6_amended_range_merge (n m : Nat) (ns ms : List Nat)
    (hbound : ∀ k ∈ n :: ns, k < usizeBound)
    (hperm : (n :: ns).Perm (m :: ms)) :
    foldRange n ns = foldRange m ms ∧
    ((foldRange n ns).1 ∈ n :: ns ∧ ∀ k ∈ n :: ns, (foldRange n ns).1 ≤ k) ∧
    ((∀ k ∈ n :: ns, k + 1 < usizeBound) →
      ∃ t, t ∈ n :: ns ∧ (∀ k ∈ n :: ns, k ≤ t) ∧
        (foldRange n ns).2 = t + 1) := by
  have hbound' : ∀ k ∈ m :: ms, k < usizeBound := fun k hk =>
    hbound k (hperm.symm.subset hk)
  have hpair : ∀ (a : Nat) (l : List Nat),
      foldRange a l =
        (l.foldl Nat.min a,
          l.foldl (fun x k => Nat.max x ((k + 1) % usizeBound))
            ((a + 1) % usizeBound)) := fun a l =>
    foldRange_pair l a ((a + 1) % usizeBound)
  have habsMin : ∀ (a : Nat) (l : List Nat), a < usizeBound →
      l.foldl Nat.min a = (a :: l).foldl Nat.min usizeBound := by
    intro a l ha
    have habs : Nat.min usizeBound a = a := Nat.min_eq_right (Nat.le_of_lt ha)
    rw [List.foldl_cons, habs]
  have habsMax : ∀ (a : Nat) (l : List Nat),
      l.foldl (fun x k => Nat.max x ((k + 1) % usizeBound)) ((a + 1) % usizeBound) =
        (a :: l).foldl (fun x k => Nat.max x ((k + 1) % usizeBound)) 0 := by
    intro a l
    have habs : Nat.max 0 ((a + 1) % usizeBound) = (a + 1) % usizeBound :=
      Nat.zero_max ((a + 1) % usizeBound)
    rw [List.foldl_cons, habs]
  have hminrc : ∀ b x y : Nat, Nat.min (Nat.min b x) y = Nat.min (Nat.min b y) x := by
    intro b x y
    show min (min b x) y = min (min b y) x
    exact min_right_comm b x y
  have hmaxrc : ∀ b x y : Nat, Nat.max (Nat.max b x) y = Nat.max (Nat.max b y) x := by
    intro b x y
    show max (max b x) y = max (max b y) x
    rw [max_assoc, max_comm x y, max_assoc]
  have hfst : (foldRange n ns).1 = ns.foldl Nat.min n := by rw [hpair n ns]
  have hsnd : (foldRange n ns).2 =
      ns.foldl (fun x k => Nat.max x ((k + 1) % usizeBound)) ((n + 1) % usizeBound) := by
    rw [hpair n ns]
  refine ⟨?_, ?_, ?_⟩
  · rw [hpair n ns, hpair m ms,
      habsMin n ns (hbound n (List.mem_cons_self n ns)),
      habsMin m ms (hbound' m (List.mem_cons_self m ms)),
      habsMax n ns, habsMax m ms,
      foldl_perm_of_right_comm (fun b x y => hminrc b x y) hperm usizeBound,
      foldl_perm_of_right_comm
        (fun b x y => hmaxrc b ((x + 1) % usizeBound) ((y + 1) % usizeBound))
        hperm 0]
  · rw [hfst]
    constructor
    · rcases foldl_min_mem ns n with h | h
      · rw [h]; exact List.mem_cons_self n ns
      · exact List.mem_cons_of_mem n h
    · intro k hk
      rcases List.mem_cons.mp hk with h | h
      · rw [h]
        exact foldl_min_le_init ns n
      · exact foldl_min_le_mem ns n k h
  · intro hov
    rw [hsnd]
    refine ⟨ns.foldl Nat.max n, ?_, ?_, ?_⟩
    · rcases foldl_max_mem ns n with h | h
      · rw [h]; exact List.mem_cons_self n ns
      · exact List.mem_cons_of_mem n h
    · intro k hk
      rcases List.mem_cons.mp hk with h | h
      · rw [h]; exact foldl_max_init_le ns n
      · exact foldl_max_mem_le ns n k h
    · have hn1 : (n + 1) % usizeBound = n + 1 :=
        Nat.mod_eq_of_lt (hov n (List.mem_cons_self n ns))
      have hcong : ns.foldl (fun x k => Nat.max x ((k + 1) % usizeBound)) (n + 1) =
          ns.foldl (fun x k => Nat.max x (k + 1)) (n + 1) :=
        foldl_congr_mem ns _ _ (n + 1) fun x k hk => by
          rw [Nat.mod_eq_of_lt (hov k (List.mem_cons_of_mem n hk))]
      have hmap : ns.foldl (fun x k => Nat.max x (k + 1)) (n + 1) =
          (ns.map fun k => k + 1).foldl Nat.max (n + 1) :=
        (List.foldl_map (fun k => k + 1) Nat.max ns (n + 1)).symm
      simp only [hn1, hcong, hmap, foldl_max_succ]

/-- Witness for C6 amended: two arrival orders of the numerals 1, 3, 2 give
the same final range, whose start is the minimum 1 and whose end is 3 + 1. -/
theorem c6_witness :
    foldRange 1 [3, 2] = foldRange 2 [1, 3] ∧
      (foldRange 1 [3, 2]).1 ∈ [1, 3, 2] ∧
      ∃ t, t ∈ [1, 3, 2] ∧ (∀ k ∈ [1, 3, 2], k ≤ t) ∧
        (foldRange 1 [3, 2]).2 = t + 1 :=
  have h := c6_amended_range_merge 1 2 [3, 2] [1, 3] (by decide) (by decide)
  ⟨h.1, h.2.1.1, h.2.2 (by decide)⟩

/-! ### Helper lemmas about the aggregator map -/

theorem lookupKey_eq_none_iff (k : String) :
    ∀ m : GMap, lookupKey k m = none ↔ k ∉ m.map Prod.fst := by
  intro m
  induction m with
  | nil => simp [lookupKey]
  | cons p rest ih =>
      obtain ⟨k', v⟩ := p
      by_cases h : k' = k
      · subst h
        simp [lookupKey]
      · rw [List.map_cons,
          show lookupKey k ((k', v) :: rest) = lookupKey k rest from by
            simp [lookupKey, h],
          ih]
        constructor
        · intro hnot hmem
          rcases List.mem_cons.mp hmem with h1 | h2
          · exact h h1.symm
          · exact hnot h2
        · intro hnot hmem
          exact hnot (List.mem_cons_of_mem _ hmem)

theorem lookupKey_some_mem {k : String} {v : FileGroup} :
    ∀ {m : GMap}, lookupKey k m = some v → k ∈ m.map Prod.fst := by
  intro m h
  by_contra habs
  rw [← lookupKey_eq_none_iff k m] at habs
  rw [habs] at h
  exact absurd h (by simp)

theorem updateAt_keys (k : String) (f : FileGroup → FileGroup) :
    ∀ m : GMap, (updateAt k f m).map Prod.fst = m.map Prod.fst := by
  intro m
  induction m with
  | nil => rfl
  | cons p rest ih =>
      obtain ⟨k', v⟩ := p
      by_cases h : k' = k <;> simp [updateAt, h, ih]

theorem insertReplace_keys (k : String) (v : FileGroup) :
    ∀ m : GMap,
      (insertReplace k v m).map Prod.fst =
        if k ∈ m.map Prod.fst then m.map Prod.fst else m.map Prod.fst ++ [k] := by
  intro m
  induction m with
  | nil => simp [insertReplace]
  | cons p rest ih =>
      obtain ⟨k', v'⟩ := p
      by_cases h : k' = k
      · subst h
        simp [insertReplace]
      · have hne : ¬ k = k' := fun hk => h hk.symm
        rw [show insertReplace k v ((k', v') :: rest) =
              (k', v') :: insertReplace k v rest from by
            simp [insertReplace, h],
          List.map_cons, List.map_cons, ih]
        by_cases hmem : k ∈ rest.map Prod.fst
        · rw [if_pos hmem, if_pos (List.mem_cons_of_mem _ hmem)]
        · rw [if_neg hmem, if_neg (fun hc => by
            rcases List.mem_cons.mp hc with h1 | h2
            · exact hne h1
            · exact hmem h2)]
          rfl

theorem insertReplace_of_absent (k : String) (v : FileGroup) :
    ∀ m : GMap, lookupKey k m = none → insertReplace k v m = m ++ [(k, v)] := by
  intro m
  induction m with
  | nil => intro _; rfl
  | cons p rest ih =>
      obtain ⟨k', v'⟩ := p
      intro h
      by_cases hk : k' = k
      · rw [hk] at h
        simp [lookupKey] at h
      · simp only [lookupKey, hk, if_false, if_neg hk] at h
        rw [show insertReplace k v ((k', v') :: rest) =
              (k', v') :: insertReplace k v rest from by
            simp [insertReplace, hk],
          ih h, List.cons_append]

theorem insertReplace_length_of_present (k : String) (v w : FileGroup) :
    ∀ m : GMap, lookupKey k m = some w →
      (insertReplace k v m).length = m.length := by
  intro m
  induction m with
  | nil => intro h; exact absurd h (by simp [lookupKey])
  | cons p rest ih =>
      obtain ⟨k', v'⟩ := p
      intro h
      by_cases hk : k' = k
      · simp [insertReplace, hk]
      · simp only [lookupKey, hk, if_false, if_neg hk] at h
        simp [insertReplace, hk, ih h]

theorem lookupKey_insertReplace_self (k : String) (v : FileGroup) :
    ∀ m : GMap, lookupKey k (insertReplace k v m) = some v := by
  intro m
  induction m with
  | nil => simp [insertReplace, lookupKey]
  | cons p rest ih =>
      obtain ⟨k', v'⟩ := p
      by_cases hk : k' = k
      · subst hk
        simp [insertReplace, lookupKey]
      · simp [insertReplace, lookupKey, hk, ih]

theorem lookupKey_insertReplace_ne (k k' : String) (v : FileGroup)
    (hne : k' ≠ k) :
    ∀ m : GMap, lookupKey k' (insertReplace k v m) = lookupKey k' m := by
  have hne' : ¬ k = k' := fun h => hne h.symm
  intro m
  induction m with
  | nil => simp [insertReplace, lookupKey, hne']
  | cons p rest ih =>
      obtain ⟨k'', v''⟩ := p
      by_cases hk : k'' = k
      · subst hk
        simp [insertReplace, lookupKey, hne']
      · by_cases hk' : k'' = k' <;>
          simp [insertReplace, lookupKey, hk, hk', hne, ih]

/-- Counterexample to C4 as stated: two entries both named `readme` (a name
that fails decomposition), arriving from the different directories `a` and
`b` at depth > 1, collide on the raw-name key, and the second singleton
REPLACES the first in place (`IndexMap::insert`): the first entry's group,
with its parent and metadata, is silently lost, so a raw-name singleton is
not immune to interaction with other entries. -/
theorem c4_counterexample :
    decompose "readme".toList = none ∧
    foldEntries [] [⟨"readme", some "a", none⟩, ⟨"readme", some "b", none⟩] =
      some [("readme", ⟨none, some "b", "readme", "", none⟩)] ∧
    (⟨none, some "b", "readme", "", none⟩ : FileGroup).parent ≠ some "a" := by
  refine ⟨by decide, by decide, by decide⟩

/-- C4 amended: an entry whose name fails decomposition is stored as a
rangeless singleton keyed by its raw name and carrying its own (unmerged)
parent, stem, extension and metadata; when its raw name is absent from the
map it is appended and every other group is untouched, but when a group
already sits under that exact key string the insert REPLACES that group's
value wholesale (keeping its position and the map's length): raw-name
singletons never have metadata or ranges merged into them, yet they can
replace, and be replaced by, a group with the same key string. -/
theorem c4_amended_singleton_insert (m : GMap) (e : Entry)
    (h : decompose e.name.toList = none) :
    ∃ m', foldEntry m e = some m' ∧
      (singletonGroup e).range = none ∧
      (singletonGroup e).meta = e.meta ∧
      (lookupKey e.name m = none → m' = m ++ [(e.name, singletonGroup e)]) ∧
      (∀ w, lookupKey e.name m = some w →
        m'.length = m.length ∧
        lookupKey e.name m' = some (singletonGroup e) ∧
        ∀ k, k ≠ e.name → lookupKey k m' = lookupKey k m) := by
  refine ⟨insertReplace e.name (singletonGroup e) m, ?_, rfl, rfl, ?_, ?_⟩
  · unfold foldEntry
    rw [h]
  · intro habs
    exact insertReplace_of_absent e.name (singletonGroup e) m habs
  · intro w hpres
    exact ⟨insertReplace_length_of_present e.name (singletonGroup e) w m hpres,
      lookupKey_insertReplace_self e.name (singletonGroup e) m,
      fun k hk => lookupKey_insertReplace_ne e.name k (singletonGroup e) hk m⟩

/-- Witness for C4 amended: folding a fresh `readme` entry into a map that
already holds a numbered group appends the raw-keyed singleton at the end. -/
theorem c4_amended_witness :
    ∃ m', foldEntry [("a#.txt", ⟨some (1, 2), none, "a", ".txt", none⟩)]
        ⟨"readme", none, none⟩ = some m' ∧
      (singletonGroup ⟨"readme", none, none⟩).range = none ∧
      (singletonGroup ⟨"readme", none, none⟩).meta = none ∧
      m' = [("a#.txt", ⟨some (1, 2), none, "a", ".txt", none⟩)] ++
        [("readme", singletonGroup ⟨"readme", none, none⟩)] :=
  have h := c4_amended_singleton_insert
    [("a#.txt", ⟨some (1, 2), none, "a", ".txt", none⟩)]
    ⟨"readme", none, none⟩ (by decide)
  have hm := h.choose_spec
  ⟨h.choose, hm.1, hm.2.1, hm.2.2.1, hm.2.2.2.1 (by decide)⟩

theorem foldEntry_keys {m m' : GMap} {e : Entry}
    (h : foldEntry m e = some m') :
    m'.map Prod.fst =
      if entryKey e ∈ m.map Prod.fst then m.map Prod.fst
      else m.map Prod.fst ++ [entryKey e] := by
  unfold foldEntry at h
  cases hd : decompose e.name.toList with
  | none =>
      rw [hd] at h
      simp only [Option.some.injEq] at h
      rw [← h, insertReplace_keys]
      unfold entryKey
      rw [hd]
  | some t =>
      obtain ⟨s, d, x⟩ := t
      rw [hd] at h
      dsimp only at h
      have hkey : entryKey e = groupKey s x := by
        unfold entryKey
        rw [hd]
      cases hp : parseUsize d with
      | none =>
          rw [hp] at h
          exact absurd h (by simp)
      | some num =>
          rw [hp] at h
          dsimp only at h
          cases hl : lookupKey (groupKey s x) m with
          | none =>
              rw [hl] at h
              simp only [Option.some.injEq] at h
              have hnot : groupKey s x ∉ m.map Prod.fst :=
                (lookupKey_eq_none_iff (groupKey s x) m).mp hl
              rw [← h, hkey, if_neg hnot, List.map_append]
              simp
          | some grp =>
              rw [hl] at h
              dsimp only at h
              cases hr : grp.range with
              | none =>
                  rw [hr] at h
                  exact absurd h (by simp)
              | some r =>
                  rw [hr] at h
                  simp only [Option.some.injEq] at h
                  have hmem : groupKey s x ∈ m.map Prod.fst :=
                    lookupKey_some_mem hl
                  rw [← h, updateAt_keys, hkey, if_pos hmem]

theorem foldEntries_keys :
    ∀ (es : List Entry) (m m' : GMap), foldEntries m es = some m' →
      m'.map Prod.fst =
        (es.map entryKey).foldl
          (fun acc k => if k ∈ acc then acc else acc ++ [k])
          (m.map Prod.fst) := by
  intro es
  induction es with
  | nil =>
      intro m m' h
      simp only [foldEntries, Option.some.injEq] at h
      rw [← h]
      rfl
  | cons e es ih =>
      intro m m' h
      unfold foldEntries at h
      cases hf : foldEntry m e with
      | none =>
          rw [hf] at h
          exact absurd h (by simp)
      | some m₁ =>
          rw [hf] at h
          rw [ih m₁ m' h, List.map_cons, List.foldl_cons, foldEntry_keys hf]

/-- C9: when the caller asks for unsorted output and activates no metadata
criterion, the ordering phase is skipped entirely and the output is the
aggregator map's value sequence verbatim, whose key sequence is exactly the
first-occurrence order of the entry keys. -/
theorem c9_unsorted_is_insertion_order (rev : Bool) (es : List Entry)
    (m : GMap) (h : foldEntries [] es = some m) :
    outputGroups true [] rev m = m.map Prod.snd ∧
    m.map Prod.fst = firstOccur (es.map entryKey) := by
  constructor
  · rfl
  · rw [firstOccur]
    exact foldEntries_keys es [] m h

/-- Witness for C9 at a concrete run: the keys `a#.txt`, `b.txt` come out in
first-occurrence order and the unsorted output is the map's values. -/
theorem c9_witness :
    outputGroups true [] true
        [("a#.txt", ⟨some (1, 3), none, "a", ".txt", none⟩),
          ("b.txt", ⟨none, none, "b", ".txt", none⟩)] =
      [⟨some (1, 3), none, "a", ".txt", none⟩,
        ⟨none, none, "b", ".txt", none⟩] ∧
    ([("a#.txt", ⟨some (1, 3), none, "a", ".txt", none⟩),
        ("b.txt", ⟨none, none, "b", ".txt", none⟩)] : GMap).map Prod.fst =
      firstOccur ([⟨"a1.txt", none, none⟩, ⟨"b.txt", none, none⟩,
        ⟨"a2.txt", none, none⟩].map entryKey) :=
  c9_unsorted_is_insertion_order true
    [⟨"a1.txt", none, none⟩, ⟨"b.txt", none, none⟩, ⟨"a2.txt", none, none⟩]
    [("a#.txt", ⟨some (1, 3), none, "a", ".txt", none⟩),
      ("b.txt", ⟨none, none, "b", ".txt", none⟩)] (by decide)

/-- Counterexample to C3 as stated: the names `a1.#.x` and `a#.2.x`
decompose to the DIFFERENT (stem, extension) pairs `("a", ".#.x")` and
`("a#.", ".x")`, yet both produce the map key `a#.#.x` (the key is the bare
concatenation `stem # ext`, and a `#` inside a stem makes it ambiguous), so
the two entries land in the same group. -/
theorem c3_counterexample :
    decompose "a1.#.x".toList =
      some ("a".toList, "1".toList, ".#.x".toList) ∧
    decompose "a#.2.x".toList =
      some ("a#.".toList, "2".toList, ".x".toList) ∧
    ("a".toList, ".#.x".toList) ≠ ("a#.".toList, ".x".toList) ∧
    groupKey "a".toList ".#.x".toList = groupKey "a#.".toList ".x".toList ∧
    (foldEntries [] [⟨"a1.#.x", none, none⟩, ⟨"a#.2.x", none, none⟩]).map
      List.length = some 1 := by
  refine ⟨by decide, by decide, by decide, by decide, by decide⟩

/-- C3 amended: two successfully decomposed and parsed names are merged into
the same group iff their KEY STRINGS `stem ++ "#" ++ ext` are equal; since a
stem may itself contain `#`, key equality is implied by, but does not imply,
equality of the (stem, extension) pairs. -/
theorem c3_amended_merge_iff_key_eq (e1 e2 : Entry)
    (s1 d1 x1 s2 d2 x2 : List Char) (n1 n2 : Nat)
    (h1 : decompose e1.name.toList = some (s1, d1, x1))
    (h2 : decompose e2.name.toList = some (s2, d2, x2))
    (hp1 : parseUsize d1 = some n1) (hp2 : parseUsize d2 = some n2) :
    ∃ m : GMap, foldEntries [] [e1, e2] = some m ∧
      (m.length = 1 ↔ groupKey s1 x1 = groupKey s2 x2) ∧
      (groupKey s1 x1 ≠ groupKey s2 x2 → m.length = 2) := by
  have hf1 : foldEntry [] e1 =
      some [(groupKey s1 x1,
        ⟨some (initRange n1), e1.parent, String.mk s1, String.mk x1,
          e1.meta⟩)] := by
    unfold foldEntry
    rw [h1]
    dsimp only
    rw [hp1]
    dsimp only [lookupKey]
    simp
  by_cases hk : groupKey s1 x1 = groupKey s2 x2
  · have hf2 : foldEntry
        [(groupKey s1 x1,
          ⟨some (initRange n1), e1.parent, String.mk s1, String.mk x1,
            e1.meta⟩)] e2 =
        some [(groupKey s2 x2,
          mergeGroup
            ⟨some (initRange n1), e1.parent, String.mk s1, String.mk x1,
              e1.meta⟩ n2 e2.meta)] := by
      unfold foldEntry
      rw [h2]
      dsimp only
      rw [hp2]
      dsimp only
      rw [hk]
      rw [show lookupKey (groupKey s2 x2)
            [(groupKey s2 x2,
              (⟨some (initRange n1), e1.parent, String.mk s1, String.mk x1,
                e1.meta⟩ : FileGroup))] =
          some ⟨some (initRange n1), e1.parent, String.mk s1, String.mk x1,
            e1.meta⟩ from by simp [lookupKey]]
      dsimp only
      simp [updateAt]
    refine ⟨[(groupKey s2 x2,
        mergeGroup
          ⟨some (initRange n1), e1.parent, String.mk s1, String.mk x1,
            e1.meta⟩ n2 e2.meta)], ?_, ?_, ?_⟩
    · show foldEntries [] [e1, e2] = _
      unfold foldEntries
      rw [hf1]
      unfold foldEntries
      rw [hf2]
      rfl
    · simp [hk]
    · intro hne
      exact absurd hk hne
  · have hf2 : foldEntry
        [(groupKey s1 x1,
          ⟨some (initRange n1), e1.parent, String.mk s1, String.mk x1,
            e1.meta⟩)] e2 =
        some [(groupKey s1 x1,
          ⟨some (initRange n1), e1.parent, String.mk s1, String.mk x1,
            e1.meta⟩),
          (groupKey s2 x2,
            ⟨some (initRange n2), e2.parent, String.mk s2, String.mk x2,
              e2.meta⟩)] := by
      unfold foldEntry
      rw [h2]
      dsimp only
      rw [hp2]
      dsimp only
      rw [show lookupKey (groupKey s2 x2)
            [(groupKey s1 x1,
              (⟨some (initRange n1), e1.parent, String.mk s1, String.mk x1,
                e1.meta⟩ : FileGroup))] = none from by
          simp [lookupKey, hk, fun h : groupKey s1 x1 = groupKey s2 x2 => hk h]]
      dsimp only
      simp
    refine ⟨[(groupKey s1 x1,
        ⟨some (initRange n1), e1.parent, String.mk s1, String.mk x1,
          e1.meta⟩),
        (groupKey s2 x2,
          ⟨some (initRange n2), e2.parent, String.mk s2, String.mk x2,
            e2.meta⟩)], ?_, ?_, ?_⟩
    · show foldEntries [] [e1, e2] = _
      unfold foldEntries
      rw [hf1]
      unfold foldEntries
      rw [hf2]
      rfl
    · simp [hk]
    · intro _
      simp

/-- Witness for C3 amended at two concrete same-key names `a1.txt` and
`a2.txt`: the fold yields one merged group. -/
theorem c3_amended_witness :
    ∃ m : GMap,
      foldEntries [] [⟨"a1.txt", none, none⟩, ⟨"a2.txt", none, none⟩] =
        some m ∧
      (m.length = 1 ↔ groupKey "a".toList ".txt".toList =
        groupKey "a".toList ".txt".toList) ∧
      (groupKey "a".toList ".txt".toList ≠ groupKey "a".toList ".txt".toList →
        m.length = 2) :=
  c3_amended_merge_iff_key_eq ⟨"a1.txt", none, none⟩ ⟨"a2.txt", none, none⟩
    "a".toList "1".toList ".txt".toList "a".toList "2".toList ".txt".toList
    1 2 (by decide) (by decide) (by decide) (by decide)
